import Mathlib

/-!
Shallow embedding of `src/src/coordinate_map_cpu.hpp` (class
`CoordinateMapCPU`).  Coordinates are integer tuples; the `robin_hood`
hash map `m_map` is modelled as an insertion-ordered association list
(an insert of an existing key is a no-op returning the incumbent entry,
`find` returns the entry of a key); the coordinate storage
`m_coordinates` is an explicit list of rows; a fatal `ASSERT` is
modelled by returning `none`.  The OMP-parallel scans (`kernel_map`,
`stride_map`) are modelled sequentially in map iteration order: the
chunking partitions the table into disjoint ranges covering every entry
once, and the atomic slot reservation only permutes the order inside one
offset's pair list, which none of the proved statements depend on.
-/

namespace MinkowskiCPU

/-- A coordinate: a tuple of `coordinate_size` integers (batch index first). -/
abbrev Coord := List Int

/-- `m_map.find(key)`: the value of the first entry with the given key. -/
def hmFind : List (Coord × Nat) → Coord → Option Nat
  | [], _ => none
  | e :: rest, k => if e.1 = k then some e.2 else hmFind rest k

/-- `m_map.insert({key, v})`: a no-op returning the incumbent value when the
key is already present, otherwise appends the new entry.  The `Bool` is the
C++ `result.second` (whether insertion took place), the `Nat` is
`result.first->second`. -/
def hmInsert (m : List (Coord × Nat)) (k : Coord) (v : Nat) :
    List (Coord × Nat) × Nat × Bool :=
  match hmFind m k with
  | some w => (m, w, false)
  | none => (m ++ [(k, v)], v, true)

/-- `CoordinateMapCPU`: declared capacity, `m_coordinate_size`,
`m_tensor_stride`, the hash map `m_map`, and the coordinate storage
`m_coordinates` (one row of `coordinate_size` components per slot). -/
structure CMap where
  capacity : Nat
  coordinate_size : Nat
  tensor_stride : List Int
  entries : List (Coord × Nat)
  storage : List Coord
  deriving DecidableEq, Repr

/-- `size()` = `m_map.size()`. -/
def CMap.size (cm : CMap) : Nat := cm.entries.length

/-- The private `insert(key, val)`: `ASSERT(val < m_capacity)` (a fatal
abort, modelled by `none`), then the copy of the coordinate into storage row
`val`, then the map insert. -/
def CMap.insert (cm : CMap) (key : Coord) (val : Nat) :
    Option (CMap × Nat × Bool) :=
  if val < cm.capacity then
    let r := hmInsert cm.entries key val
    some ({ cm with storage := cm.storage.set val key, entries := r.1 }, r.2)
  else
    none

/-- A freshly constructed map: the constructor followed by `allocate(N)`
(per the spec, pre-allocation of the map to size `N`). -/
def freshCMap (D : Nat) (ts : List Int) (N : Nat) : CMap :=
  ⟨N, D, ts, [], List.replicate N []⟩

/-- The loop of batch `insert(coordinate_begin, coordinate_end)`: note that
`value` increments for every input coordinate (`++value` sits in the loop
header), whether or not the map insert succeeded. -/
def insertBatchGo : CMap → Nat → List Coord → Option CMap
  | cm, _, [] => some cm
  | cm, value, c :: rest =>
    match cm.insert c value with
    | none => none
    | some r => insertBatchGo r.1 (value + 1) rest

/-- Batch `insert`: `N = (end - begin) / coordinate_size` coordinates are
inserted into a map pre-allocated to `N`. -/
def insertBatch (D : Nat) (coords : List Coord) : Option CMap :=
  insertBatchGo (freshCMap D [1] coords.length) 0 coords

/-- The loop of `insert_and_map<remap>`: on a fresh key, push `row_index`
onto `mapping` and `value` onto `inverse_mapping`; on a duplicate, push the
incumbent row `result.first->second`; then
`value += remap ? result.second : 1`. -/
def insertAndMapGo (remap : Bool) :
    CMap → Nat → Nat → List Nat → List Nat → List Coord →
    Option (CMap × List Nat × List Nat)
  | cm, _, _, mp, im, [] => some (cm, mp, im)
  | cm, value, row, mp, im, c :: rest =>
    match cm.insert c value with
    | none => none
    | some (cm2, w, fresh) =>
      insertAndMapGo remap cm2
        (value + if remap then (if fresh then 1 else 0) else 1) (row + 1)
        (if fresh then mp ++ [row] else mp)
        (if fresh then im ++ [value] else im ++ [w]) rest

/-- `insert_and_map<remap>(begin, end)` on a fresh map of capacity `N`,
returning `(map, mapping, inverse_mapping)`. -/
def insert_and_map (remap : Bool) (D : Nat) (coords : List Coord) :
    Option (CMap × List Nat × List Nat) :=
  insertAndMapGo remap (freshCMap D [1] coords.length) 0 0 [] [] coords

/-- The scan of batch `find`: for every hit, push the query position onto
`valid_query_index` and the row onto `query_result`. -/
def findLoop (m : List (Coord × Nat)) : Nat → List Coord → List Nat × List Nat
  | _, [] => ([], [])
  | i, k :: rest =>
    let r := findLoop m (i + 1) rest
    match hmFind m k with
    | some v => (i :: r.1, v :: r.2)
    | none => r

/-- Batch `find(key_first, key_last)`: `ASSERT(N <= m_capacity)` (fatal,
modelled by `none`), then the scan; returns
`(valid_query_index, query_result)`. -/
def CMap.findBatch (cm : CMap) (queries : List Coord) :
    Option (List Nat × List Nat) :=
  if queries.length ≤ cm.capacity then some (findLoop cm.entries 0 queries)
  else none

/-- Modelled from the spec: `detail::stride_coordinate` is defined in
`coordinate_map.hpp`, which is outside the sampled source.  Per spec §4.2 and
testable property 10, the batch component is passed through unchanged and
every spatial component is floor-divided by the corresponding
tensor-stride entry. -/
def strideCoordinate (c : Coord) (ts : List Int) : Coord :=
  match c with
  | [] => []
  | b :: spatial => b :: List.zipWith (fun x s => Int.fdiv x s) spatial ts

/-- The loop body of `stride_map`: for every input entry, the strided
coordinate is looked up in the output map; a miss is the fatal
`ASSERT(iter_out != out_coordinate_map.m_map.cend())`, modelled by `none`. -/
def strideMapLoop (outEntries : List (Coord × Nat)) (ts : List Int) :
    List (Coord × Nat) → Option (List (Nat × Nat))
  | [] => some []
  | e :: rest =>
    match hmFind outEntries (strideCoordinate e.1 ts) with
    | none => none
    | some orow =>
      (strideMapLoop outEntries ts rest).map (fun ps => (e.2, orow) :: ps)

/-- `stride_map(out_coordinate_map, out_tensor_stride)`:
`ASSERT(in_size > out_coordinate_map.size())` first, then one
`(in_row, out_row)` pair per input entry. -/
def stride_mapFn (cm out_cm : CMap) (ts : List Int) :
    Option (List Nat × List Nat) :=
  if out_cm.size < cm.size then
    (strideMapLoop out_cm.entries ts cm.entries).map
      (fun ps => (ps.map Prod.fst, ps.map Prod.snd))
  else
    none

/-- Modelled from the spec: the kernel-region collaborator
(`kernel_region.hpp` is outside the sampled source).  For a center
coordinate it enumerates `volume` neighbor coordinates in a fixed
deterministic order (`neighbor c k` is the offset-`k` neighbor of `c`), it
carries the kernel tensor stride, and a discriminator telling custom offset
lists apart (`RegionType::CUSTOM`).  Per spec §4.4 a non-custom region of
volume one enumerates the center itself. -/
structure KernelRegion where
  volume : Nat
  is_custom : Bool
  tensor_stride : List Int
  neighbor : Coord → Nat → Coord

/-- The per-offset pair list of `kernel_map`'s general path: scanning the
output map, the offset-`k` neighbor of each output coordinate is looked up
in the input map and a hit contributes the pair `(in_row, out_row)`. -/
def kmPairsAt (cm : CMap) (outEntries : List (Coord × Nat))
    (K : KernelRegion) (k : Nat) : List (Nat × Nat) :=
  outEntries.filterMap fun e =>
    (hmFind cm.entries (K.neighbor e.1 k)).map fun irow => (irow, e.2)

/-- The pair list of `kernel_map`'s fast path (non-custom region of volume
one): the single neighbor looked up is the output coordinate itself. -/
def kmPairsFast (cm : CMap) (outEntries : List (Coord × Nat)) :
    List (Nat × Nat) :=
  outEntries.filterMap fun e =>
    (hmFind cm.entries e.1).map fun irow => (irow, e.2)

/-- `kernel_map(out_coordinate_map, kernel)`: per offset `k` the two
index-aligned row lists `(in_maps[k], out_maps[k])`. -/
def kernel_mapFn (cm out_cm : CMap) (K : KernelRegion) :
    List (List Nat) × List (List Nat) :=
  if K.is_custom = false ∧ K.volume = 1 then
    ([(kmPairsFast cm out_cm.entries).map Prod.fst],
     [(kmPairsFast cm out_cm.entries).map Prod.snd])
  else
    ((List.range K.volume).map fun k =>
        (kmPairsAt cm out_cm.entries K k).map Prod.fst,
     (List.range K.volume).map fun k =>
        (kmPairsAt cm out_cm.entries K k).map Prod.snd)

/-- The inner loop of `stride_region` as written in the source: each kernel
point absent from the new map (`out_mmap`, i.e. `stride_map.m_map`) is
passed to `insert(point, num_used)` — the receiver's own private `insert`,
mutating `this` (which is `const`-qualified) instead of `stride_map`. -/
def strideRegionInner (K : KernelRegion) (center : Coord) :
    CMap → CMap → Nat → List Nat → Option (CMap × Nat)
  | receiver, _, numUsed, [] => some (receiver, numUsed)
  | receiver, smap, numUsed, k :: ks =>
    match hmFind smap.entries (K.neighbor center k) with
    | some _ => strideRegionInner K center receiver smap numUsed ks
    | none =>
      match receiver.insert (K.neighbor center k) numUsed with
      | none => none
      | some r => strideRegionInner K center r.1 smap (numUsed + 1) ks

/-- The outer loop of `stride_region`, iterating over a snapshot of the
receiver's entries. -/
def strideRegionGo (K : KernelRegion) :
    CMap → CMap → Nat → List (Coord × Nat) → Option (CMap × CMap)
  | receiver, smap, _, [] => some (smap, receiver)
  | receiver, smap, numUsed, e :: rest =>
    match strideRegionInner K e.1 receiver smap numUsed
        (List.range K.volume) with
    | none => none
    | some r2 => strideRegionGo K r2.1 smap r2.2 rest

/-- `stride_region(kernel)` as written: it builds `stride_map` with capacity
`size() * kernel.volume()` and the kernel's tensor stride, but the loop body
`insert(point, num_used)` inserts into the receiver, so the returned first
component (the new map) never gains an entry; the second component is the
mutated receiver. -/
def stride_region (cm : CMap) (K : KernelRegion) : Option (CMap × CMap) :=
  strideRegionGo K cm
    (freshCMap cm.coordinate_size K.tensor_stride (cm.size * K.volume)) 0
    cm.entries

/-! ### Specification-side list functions

These are the yardsticks the embedded operations are measured against:
first-seen deduplication, first-occurrence positions, and enumeration
with indices. -/

/-- Enumerate a list with indices starting at `i`, key first. -/
def withIdxFrom : Nat → List Coord → List (Coord × Nat)
  | _, [] => []
  | i, c :: rest => (c, i) :: withIdxFrom (i + 1) rest

/-- Index of the first occurrence of `c` (length of the list if absent). -/
def idxOf : List Coord → Coord → Nat
  | [], _ => 0
  | a :: rest, c => if a = c then 0 else idxOf rest c + 1

/-- First-seen deduplication of `l`, appended to the already-seen list `u`. -/
def firstSeenFrom : List Coord → List Coord → List Coord
  | u, [] => u
  | u, c :: rest => firstSeenFrom (if c ∈ u then u else u ++ [c]) rest

/-- The deduplicated list in first-seen order. -/
def firstSeen (l : List Coord) : List Coord := firstSeenFrom [] l

/-- The positions (offset by `row`) of the elements of `l` that are fresh
relative to the already-seen list `u`. -/
def freshPositions : List Coord → Nat → List Coord → List Nat
  | _, _, [] => []
  | u, row, c :: rest =>
    if c ∈ u then freshPositions u (row + 1) rest
    else row :: freshPositions (u ++ [c]) (row + 1) rest

/-- The association list pairing each first occurrence with its position
(offset by `row`), skipping elements already in `u`. -/
def firstOccEntries : List Coord → Nat → List Coord → List (Coord × Nat)
  | _, _, [] => []
  | u, row, c :: rest =>
    if c ∈ u then firstOccEntries u (row + 1) rest
    else (c, row) :: firstOccEntries (u ++ [c]) (row + 1) rest

/-- For each element of `l`, its index in the accumulated first-seen list. -/
def invIdx : List Coord → List Coord → List Nat
  | _, [] => []
  | u, c :: rest =>
    if c ∈ u then idxOf u c :: invIdx u rest
    else u.length :: invIdx (u ++ [c]) rest

/-- Write the rows of `l` into `st` at consecutive slots starting at `i`. -/
def setAll : List Coord → Nat → List Coord → List Coord
  | st, _, [] => st
  | st, i, c :: rest => setAll (st.set i c) (i + 1) rest

/-- The `(position, row)` hit list of a batch `find` over `queries`. -/
def findPairs (m : List (Coord × Nat)) (i : Nat) (queries : List Coord) :
    List (Nat × Nat) :=
  (withIdxFrom i queries).filterMap fun e =>
    (hmFind m e.1).map fun r => (e.2, r)

/-! ### Helper lemmas -/

theorem hmFind_withIdxFrom (c : Coord) :
    ∀ (u : List Coord) (i : Nat),
      hmFind (withIdxFrom i u) c =
        if c ∈ u then some (i + idxOf u c) else none := by
  intro u
  induction u with
  | nil => intro i; simp [withIdxFrom, hmFind]
  | cons a rest ih =>
      intro i
      by_cases h : a = c
      · subst h
        simp [withIdxFrom, hmFind, idxOf]
      · simp only [withIdxFrom, hmFind, if_neg h, ih, idxOf]
        by_cases hm : c ∈ rest
        · simp [hm, List.mem_cons, Ne.symm h, if_neg h]
          omega
        · simp [hm, List.mem_cons, Ne.symm h, if_neg h]

theorem withIdxFrom_append :
    ∀ (u : List Coord) (i : Nat) (c : Coord),
      withIdxFrom i (u ++ [c]) = withIdxFrom i u ++ [(c, i + u.length)] := by
  intro u
  induction u with
  | nil => intro i c; simp [withIdxFrom]
  | cons a rest ih =>
      intro i c
      have h2 : i + 1 + rest.length = i + (rest.length + 1) := by omega
      simp only [List.cons_append, withIdxFrom, List.append_eq, ih, h2,
        List.length_cons]

theorem withIdxFrom_map_snd :
    ∀ (u : List Coord) (i : Nat),
      (withIdxFrom i u).map (fun e => e.2) = List.range' i u.length := by
  intro u
  induction u with
  | nil => intro i; simp [withIdxFrom]
  | cons a rest ih => intro i; simp [withIdxFrom, ih, List.range']

theorem mem_withIdxFrom :
    ∀ (u : List Coord) (i : Nat) (c : Coord) (j : Nat),
      (c, j) ∈ withIdxFrom i u ↔
        ∃ t, t < u.length ∧ j = i + t ∧ c = u.getD t [] := by
  intro u
  induction u with
  | nil => intro i c j; simp [withIdxFrom]
  | cons a rest ih =>
      intro i c j
      simp only [withIdxFrom, List.mem_cons, ih, Prod.mk.injEq,
        List.length_cons]
      constructor
      · rintro (⟨hc, hj⟩ | ⟨t, ht, hj, hc⟩)
        · exact ⟨0, by omega, by omega, by simp [hc]⟩
        · exact ⟨t + 1, by omega, by omega, by simpa using hc⟩
      · rintro ⟨t, ht, hj, hc⟩
        match t with
        | 0 => exact Or.inl ⟨by simpa using hc, by omega⟩
        | t' + 1 =>
            exact Or.inr ⟨t', by omega, by omega, by simpa using hc⟩

theorem idxOf_lt_length {c : Coord} :
    ∀ {u : List Coord}, c ∈ u → idxOf u c < u.length := by
  intro u
  induction u with
  | nil => intro h; cases h
  | cons a rest ih =>
      intro h
      by_cases ha : a = c
      · simp [idxOf, ha]
      · have : c ∈ rest := by
          rcases List.mem_cons.mp h with h' | h'
          · exact absurd h'.symm ha
          · exact h'
        simp only [idxOf, if_neg ha, List.length_cons]
        exact Nat.succ_lt_succ (ih this)

theorem getD_idxOf {c : Coord} (d : Coord) :
    ∀ {u : List Coord}, c ∈ u → u.getD (idxOf u c) d = c := by
  intro u
  induction u with
  | nil => intro h; cases h
  | cons a rest ih =>
      intro h
      by_cases ha : a = c
      · simp [idxOf, ha]
      · have : c ∈ rest := by
          rcases List.mem_cons.mp h with h' | h'
          · exact absurd h'.symm ha
          · exact h'
        simp only [idxOf, if_neg ha]
        simpa using ih this

theorem idxOf_append_left {c : Coord} :
    ∀ {p : List Coord} (q : List Coord), c ∈ p →
      idxOf (p ++ q) c = idxOf p c := by
  intro p
  induction p with
  | nil => intro q h; cases h
  | cons a rest ih =>
      intro q h
      by_cases ha : a = c
      · simp [idxOf, ha]
      · have : c ∈ rest := by
          rcases List.mem_cons.mp h with h' | h'
          · exact absurd h'.symm ha
          · exact h'
        simp [idxOf, if_neg ha, ih q this]

theorem idxOf_append_right {c : Coord} :
    ∀ {p : List Coord} (q : List Coord), c ∉ p →
      idxOf (p ++ q) c = p.length + idxOf q c := by
  intro p
  induction p with
  | nil => intro q _; simp
  | cons a rest ih =>
      intro q h
      have ha : a ≠ c := fun hac => h (by simp [hac])
      have hr : c ∉ rest := fun hc => h (List.mem_cons_of_mem a hc)
      have h2 := ih q hr
      simp only [List.cons_append, idxOf, if_neg ha, List.append_eq,
        List.length_cons] at h2 ⊢
      omega

theorem mem_firstSeenFrom {x : Coord} :
    ∀ (l u : List Coord), x ∈ firstSeenFrom u l ↔ x ∈ u ∨ x ∈ l := by
  intro l
  induction l with
  | nil => intro u; simp [firstSeenFrom]
  | cons c rest ih =>
      intro u
      by_cases hc : c ∈ u
      · rw [firstSeenFrom, if_pos hc, ih]
        constructor
        · rintro (h | h)
          · exact Or.inl h
          · exact Or.inr (List.mem_cons_of_mem c h)
        · rintro (h | h)
          · exact Or.inl h
          · rcases List.mem_cons.mp h with h' | h'
            · exact Or.inl (h' ▸ hc)
            · exact Or.inr h'
      · rw [firstSeenFrom, if_neg hc, ih]
        simp only [List.mem_append, List.mem_singleton, List.mem_cons]
        tauto

theorem firstSeenFrom_extends :
    ∀ (l u : List Coord), ∃ t, firstSeenFrom u l = u ++ t := by
  intro l
  induction l with
  | nil => intro u; exact ⟨[], by simp [firstSeenFrom]⟩
  | cons c rest ih =>
      intro u
      by_cases hc : c ∈ u
      · rw [firstSeenFrom, if_pos hc]; exact ih u
      · rw [firstSeenFrom, if_neg hc]
        obtain ⟨t, ht⟩ := ih (u ++ [c])
        exact ⟨c :: t, by simp [ht]⟩

theorem firstSeenFrom_cons_mem {u : List Coord} {c : Coord} (rest : List Coord)
    (h : c ∈ u) : firstSeenFrom u (c :: rest) = firstSeenFrom u rest := by
  rw [firstSeenFrom, if_pos h]

theorem firstSeenFrom_cons_not_mem {u : List Coord} {c : Coord}
    (rest : List Coord) (h : c ∉ u) :
    firstSeenFrom u (c :: rest) = firstSeenFrom (u ++ [c]) rest := by
  rw [firstSeenFrom, if_neg h]

theorem freshPositions_congr {u u' : List Coord}
    (hm : ∀ x, x ∈ u ↔ x ∈ u') :
    ∀ (l : List Coord) (row : Nat),
      freshPositions u row l = freshPositions u' row l := by
  intro l
  induction l generalizing u u' hm with
  | nil => intro row; rfl
  | cons c rest ih =>
      intro row
      by_cases hc : c ∈ u
      · rw [freshPositions, if_pos hc, freshPositions,
          if_pos ((hm c).mp hc)]
        exact ih hm (row + 1)
      · rw [freshPositions, if_neg hc, freshPositions,
          if_neg (fun h => hc ((hm c).mpr h))]
        have hm2 : ∀ x, x ∈ u ++ [c] ↔ x ∈ u' ++ [c] := by
          intro x; simp [hm x]
        rw [ih hm2 (row + 1)]

theorem mem_freshPositions :
    ∀ (l u : List Coord) (row p : Nat),
      p ∈ freshPositions u row l ↔
        ∃ i, i < l.length ∧ p = row + i ∧ l.getD i [] ∉ u ∧
          l.getD i [] ∉ l.take i := by
  intro l
  induction l with
  | nil => intro u row p; simp [freshPositions]
  | cons c rest ih =>
      intro u row p
      by_cases hc : c ∈ u
      · rw [freshPositions, if_pos hc, ih]
        constructor
        · rintro ⟨i, hi, hp, hu, ht⟩
          refine ⟨i + 1, by simp; omega, by omega, by simpa using hu, ?_⟩
          simp only [List.take_succ_cons, List.getD_cons_succ, List.mem_cons]
          rintro (h | h)
          · exact hu (h ▸ hc)
          · exact ht h
        · rintro ⟨i, hi, hp, hu, ht⟩
          match i with
          | 0 => exact absurd hc (by simpa using hu)
          | i' + 1 =>
              refine ⟨i', by simp at hi; omega, by omega,
                by simpa using hu, ?_⟩
              simp only [List.take_succ_cons, List.getD_cons_succ,
                List.mem_cons] at ht
              exact fun h => ht (Or.inr h)
      · rw [freshPositions, if_neg hc, List.mem_cons, ih]
        constructor
        · rintro (hp | ⟨i, hi, hp, hu, ht⟩)
          · exact ⟨0, by simp, by omega, by simpa using hc, by simp⟩
          · simp only [List.mem_append, List.mem_singleton, not_or] at hu
            refine ⟨i + 1, by simp; omega, by omega, by simpa using hu.1, ?_⟩
            simp only [List.take_succ_cons, List.getD_cons_succ,
              List.mem_cons]
            rintro (h | h)
            · exact hu.2 h
            · exact ht h
        · rintro ⟨i, hi, hp, hu, ht⟩
          match i with
          | 0 => exact Or.inl (by omega)
          | i' + 1 =>
              simp only [List.take_succ_cons, List.getD_cons_succ,
                List.mem_cons, not_or] at ht hu
              refine Or.inr ⟨i', by simp at hi; omega, by omega, ?_, ht.2⟩
              simp only [List.mem_append, List.mem_singleton, not_or]
              exact ⟨hu, ht.1⟩

theorem freshPositions_lower_bound :
    ∀ (l u : List Coord) (row : Nat) (p : Nat),
      p ∈ freshPositions u row l → row ≤ p := by
  intro l
  induction l with
  | nil => intro u row p h; simp [freshPositions] at h
  | cons c rest ih =>
      intro u row p h
      by_cases hc : c ∈ u
      · rw [freshPositions, if_pos hc] at h
        have := ih u (row + 1) p h
        omega
      · rw [freshPositions, if_neg hc] at h
        rcases List.mem_cons.mp h with h' | h'
        · omega
        · have := ih (u ++ [c]) (row + 1) p h'
          omega

theorem freshPositions_pairwise :
    ∀ (l u : List Coord) (row : Nat),
      List.Pairwise (fun a b => a < b) (freshPositions u row l) := by
  intro l
  induction l with
  | nil => intro u row; simp [freshPositions]
  | cons c rest ih =>
      intro u row
      by_cases hc : c ∈ u
      · rw [freshPositions, if_pos hc]; exact ih u (row + 1)
      · rw [freshPositions, if_neg hc]
        refine List.pairwise_cons.mpr ⟨?_, ih (u ++ [c]) (row + 1)⟩
        intro p hp
        have := freshPositions_lower_bound rest (u ++ [c]) (row + 1) p hp
        omega

theorem freshPositions_nodup_range :
    ∀ (l u : List Coord) (row : Nat), l.Nodup → (∀ x ∈ l, x ∉ u) →
      freshPositions u row l = List.range' row l.length := by
  intro l
  induction l with
  | nil => intro u row _ _; simp [freshPositions]
  | cons c rest ih =>
      intro u row hnd hdis
      have hc : c ∉ u := hdis c (List.mem_cons_self c rest)
      rw [freshPositions, if_neg hc]
      have hnd' : rest.Nodup := (List.nodup_cons.mp hnd).2
      have hcr : c ∉ rest := (List.nodup_cons.mp hnd).1
      have hdis' : ∀ x ∈ rest, x ∉ u ++ [c] := by
        intro x hx
        simp only [List.mem_append, List.mem_singleton, not_or]
        exact ⟨hdis x (List.mem_cons_of_mem c hx),
          fun hxc => hcr (hxc ▸ hx)⟩
      rw [ih (u ++ [c]) (row + 1) hnd' hdis']
      simp [List.range']

theorem hmFind_firstOccEntries (c : Coord) :
    ∀ (l u : List Coord) (row : Nat),
      hmFind (firstOccEntries u row l) c =
        if c ∉ u ∧ c ∈ l then some (row + idxOf l c) else none := by
  intro l
  induction l with
  | nil => intro u row; simp [firstOccEntries, hmFind]
  | cons a rest ih =>
      intro u row
      by_cases ha : a ∈ u
      · rw [firstOccEntries, if_pos ha, ih]
        by_cases hac : a = c
        · subst hac
          rw [if_neg (fun h => h.1 ha), if_neg (fun h => h.1 ha)]
        · by_cases hcond : c ∉ u ∧ c ∈ rest
          · rw [if_pos hcond,
              if_pos ⟨hcond.1, List.mem_cons_of_mem a hcond.2⟩]
            simp only [idxOf, if_neg hac, Option.some.injEq]
            omega
          · rw [if_neg hcond, if_neg]
            intro h
            rcases List.mem_cons.mp h.2 with h' | h'
            · exact hac h'.symm
            · exact hcond ⟨h.1, h'⟩
      · rw [firstOccEntries, if_neg ha, hmFind]
        by_cases hac : a = c
        · subst hac
          rw [if_pos rfl,
            if_pos ⟨ha, List.mem_cons_self a rest⟩]
          simp [idxOf]
        · rw [if_neg hac, ih]
          have hcu2 : c ∉ u ++ [a] ↔ c ∉ u := by
            simp only [List.mem_append, List.mem_singleton, not_or]
            exact ⟨fun h => h.1, fun h => ⟨h, fun hx => hac hx.symm⟩⟩
          by_cases hcond : c ∉ u ∧ c ∈ rest
          · rw [if_pos ⟨hcu2.mpr hcond.1, hcond.2⟩,
              if_pos ⟨hcond.1, List.mem_cons_of_mem a hcond.2⟩]
            simp only [idxOf, if_neg hac, Option.some.injEq]
            omega
          · rw [if_neg (fun h => hcond ⟨hcu2.mp h.1, h.2⟩), if_neg]
            intro h
            rcases List.mem_cons.mp h.2 with h' | h'
            · exact hac h'.symm
            · exact hcond ⟨h.1, h'⟩

theorem firstOccEntries_map_snd :
    ∀ (l u : List Coord) (row : Nat),
      (firstOccEntries u row l).map (fun e => e.2) =
        freshPositions u row l := by
  intro l
  induction l with
  | nil => intro u row; rfl
  | cons c rest ih =>
      intro u row
      by_cases hc : c ∈ u
      · rw [firstOccEntries, if_pos hc, freshPositions, if_pos hc, ih]
      · rw [firstOccEntries, if_neg hc, freshPositions, if_neg hc,
          List.map_cons, ih]

theorem firstOccEntries_map_fst :
    ∀ (l u : List Coord) (row : Nat),
      (firstOccEntries u row l).map (fun e => e.1) =
        (firstSeenFrom u l).drop u.length := by
  intro l
  induction l with
  | nil => intro u row; simp [firstOccEntries, firstSeenFrom]
  | cons c rest ih =>
      intro u row
      by_cases hc : c ∈ u
      · rw [firstOccEntries, if_pos hc, firstSeenFrom_cons_mem rest hc, ih]
      · rw [firstOccEntries, if_neg hc, firstSeenFrom_cons_not_mem rest hc,
          List.map_cons, ih (u ++ [c]) (row + 1)]
        obtain ⟨t, ht⟩ := firstSeenFrom_extends rest (u ++ [c])
        rw [ht, List.drop_left]
        have h2 : (u ++ [c]) ++ t = u ++ (c :: t) := by simp
        rw [h2, List.drop_left]

theorem mem_firstOccEntries {e : Coord × Nat} :
    ∀ (l u : List Coord) (row : Nat), e ∈ firstOccEntries u row l →
      e.1 ∉ u ∧ e.2 = row + idxOf l e.1 := by
  intro l
  induction l with
  | nil => intro u row h; simp [firstOccEntries] at h
  | cons c rest ih =>
      intro u row h
      by_cases hc : c ∈ u
      · rw [firstOccEntries, if_pos hc] at h
        obtain ⟨h1, h2⟩ := ih u (row + 1) h
        have hne : c ≠ e.1 := fun hx => h1 (hx ▸ hc)
        rw [idxOf, if_neg hne]
        exact ⟨h1, by omega⟩
      · rw [firstOccEntries, if_neg hc] at h
        rcases List.mem_cons.mp h with h' | h'
        · rw [h']
          simp [idxOf, hc]
        · obtain ⟨h1, h2⟩ := ih (u ++ [c]) (row + 1) h'
          simp only [List.mem_append, List.mem_singleton, not_or] at h1
          rw [idxOf, if_neg (fun hx => h1.2 hx.symm)]
          exact ⟨h1.1, by omega⟩

theorem mapCongrMem {α β : Type} {f g : α → β} :
    ∀ {l : List α}, (∀ a ∈ l, f a = g a) → l.map f = l.map g := by
  intro l
  induction l with
  | nil => intro _; rfl
  | cons a rest ih =>
      intro h
      rw [List.map_cons, List.map_cons, h a (List.mem_cons_self a rest),
        ih (fun x hx => h x (List.mem_cons_of_mem a hx))]

theorem zip_map_fst_snd {α β : Type} :
    ∀ (l : List (α × β)), (l.map Prod.fst).zip (l.map Prod.snd) = l := by
  intro l
  induction l with
  | nil => rfl
  | cons e rest ih => simp [ih]

theorem getD_map_lt {α β : Type} (f : α → β) (d : α) (e : β) :
    ∀ (l : List α) (i : Nat), i < l.length →
      (l.map f).getD i e = f (l.getD i d) := by
  intro l
  induction l with
  | nil => intro i h; simp at h
  | cons a rest ih =>
      intro i h
      match i with
      | 0 => rfl
      | i' + 1 =>
          simp only [List.map_cons, List.getD_cons_succ]
          exact ih i' (by simp at h; omega)

theorem getD_append_lt (d : Coord) :
    ∀ (u t : List Coord) (i : Nat), i < u.length →
      (u ++ t).getD i d = u.getD i d := by
  intro u
  induction u with
  | nil => intro t i h; simp at h
  | cons a rest ih =>
      intro t i h
      match i with
      | 0 => rfl
      | i' + 1 =>
          simp only [List.cons_append, List.getD_cons_succ]
          exact ih t i' (by simp at h; omega)

theorem getD_append_len (d c : Coord) :
    ∀ (u t : List Coord), (u ++ c :: t).getD u.length d = c := by
  intro u
  induction u with
  | nil => intro t; rfl
  | cons a rest ih => intro t; simpa using ih t

theorem idxOf_firstOcc (l : List Coord) :
    ∀ (i : Nat), i < l.length → l.getD i [] ∉ l.take i →
      idxOf l (l.getD i []) = i := by
  induction l with
  | nil => intro i h _; simp at h
  | cons a rest ih =>
      intro i h ht
      match i with
      | 0 => simp [idxOf]
      | i' + 1 =>
          simp only [List.take_succ_cons, List.mem_cons, not_or,
            List.getD_cons_succ] at ht
          rw [List.getD_cons_succ, idxOf, if_neg (fun hx => ht.1 hx.symm),
            ih i' (by simp at h; omega) ht.2]

theorem invIdx_getD :
    ∀ (l u : List Coord),
      (invIdx u l).map (fun j => (firstSeenFrom u l).getD j []) = l := by
  intro l
  induction l with
  | nil => intro u; rfl
  | cons c rest ih =>
      intro u
      by_cases hc : c ∈ u
      · rw [invIdx, if_pos hc, firstSeenFrom_cons_mem rest hc,
          List.map_cons, ih u]
        obtain ⟨t, ht⟩ := firstSeenFrom_extends rest u
        rw [ht, getD_append_lt [] u t _ (idxOf_lt_length hc),
          getD_idxOf [] hc]
      · rw [invIdx, if_neg hc, firstSeenFrom_cons_not_mem rest hc,
          List.map_cons, ih (u ++ [c])]
        obtain ⟨t, ht⟩ := firstSeenFrom_extends rest (u ++ [c])
        have h2 : (u ++ [c]) ++ t = u ++ (c :: t) := by simp
        rw [ht, h2, getD_append_len [] c u t]

theorem freshPositions_map_getD :
    ∀ (l u : List Coord) (row : Nat),
      ((freshPositions u row l).map fun p => l.getD (p - row) []) =
        (firstSeenFrom u l).drop u.length := by
  intro l
  induction l with
  | nil =>
      intro u row
      simp [freshPositions, firstSeenFrom, List.drop_length]
  | cons c rest ih =>
      intro u row
      by_cases hc : c ∈ u
      · rw [firstSeenFrom_cons_mem rest hc, freshPositions, if_pos hc,
          ← ih u (row + 1)]
        apply mapCongrMem
        intro p hp
        have hb := freshPositions_lower_bound rest u (row + 1) p hp
        have h3 : p - row = (p - (row + 1)) + 1 := by omega
        rw [h3, List.getD_cons_succ]
      · rw [firstSeenFrom_cons_not_mem rest hc, freshPositions, if_neg hc,
          List.map_cons]
        have hhead : (c :: rest).getD (row - row) [] = c := by
          simp [Nat.sub_self]
        rw [hhead]
        have htail :
            ((freshPositions (u ++ [c]) (row + 1) rest).map
              fun p => (c :: rest).getD (p - row) []) =
            (firstSeenFrom (u ++ [c]) rest).drop (u ++ [c]).length := by
          rw [← ih (u ++ [c]) (row + 1)]
          apply mapCongrMem
          intro p hp
          have hb := freshPositions_lower_bound rest (u ++ [c]) (row + 1) p hp
          have h3 : p - row = (p - (row + 1)) + 1 := by omega
          rw [h3, List.getD_cons_succ]
        rw [htail]
        obtain ⟨t, ht⟩ := firstSeenFrom_extends rest (u ++ [c])
        rw [ht, List.drop_left]
        have h2 : (u ++ [c]) ++ t = u ++ (c :: t) := by simp
        rw [h2, List.drop_left]

theorem set_getD_self (c d : Coord) :
    ∀ (st : List Coord) (i : Nat), i < st.length →
      (st.set i c).getD i d = c := by
  intro st
  induction st with
  | nil => intro i h; simp at h
  | cons a rest ih =>
      intro i h
      match i with
      | 0 => rfl
      | i' + 1 =>
          simp only [List.set_cons_succ, List.getD_cons_succ]
          exact ih i' (by simp at h; omega)

theorem set_getD_ne (c d : Coord) :
    ∀ (st : List Coord) (i j : Nat), i ≠ j →
      (st.set i c).getD j d = st.getD j d := by
  intro st
  induction st with
  | nil => intro i j _; simp
  | cons a rest ih =>
      intro i j hij
      match i, j with
      | 0, 0 => exact absurd rfl hij
      | 0, j' + 1 => rfl
      | i' + 1, 0 => rfl
      | i' + 1, j' + 1 =>
          simp only [List.set_cons_succ, List.getD_cons_succ]
          exact ih i' j' (fun h => hij (by omega))

theorem setAll_length :
    ∀ (l st : List Coord) (i : Nat), (setAll st i l).length = st.length := by
  intro l
  induction l with
  | nil => intro st i; rfl
  | cons c rest ih =>
      intro st i
      rw [setAll, ih, List.length_set]

theorem setAll_getD_lt (d : Coord) :
    ∀ (l st : List Coord) (i j : Nat), j < i →
      (setAll st i l).getD j d = st.getD j d := by
  intro l
  induction l with
  | nil => intro st i j _; rfl
  | cons c rest ih =>
      intro st i j hj
      rw [setAll, ih (st.set i c) (i + 1) j (by omega),
        set_getD_ne c d st i j (by omega)]

theorem setAll_getD (d : Coord) :
    ∀ (l st : List Coord) (i j : Nat), j < l.length →
      i + l.length ≤ st.length →
      (setAll st i l).getD (i + j) d = l.getD j d := by
  intro l
  induction l with
  | nil => intro st i j h _; simp at h
  | cons c rest ih =>
      intro st i j hj hcap
      match j with
      | 0 =>
          rw [setAll, setAll_getD_lt d rest (st.set i c) (i + 1) (i + 0)
            (by omega)]
          have : i + 0 = i := by omega
          rw [this, set_getD_self c d st i (by simp at hcap; omega)]
          rfl
      | j' + 1 =>
          rw [setAll]
          have h1 : i + (j' + 1) = (i + 1) + j' := by omega
          rw [h1, ih (st.set i c) (i + 1) j' (by simp at hj; omega)
            (by simp at hcap ⊢; omega), List.getD_cons_succ]

theorem CMap.insert_eq_found {cm : CMap} {key : Coord} {val w : Nat}
    (hv : val < cm.capacity) (hf : hmFind cm.entries key = some w) :
    cm.insert key val =
      some ({ cm with storage := cm.storage.set val key }, w, false) := by
  simp [CMap.insert, hmInsert, hf, hv]

theorem CMap.insert_eq_fresh {cm : CMap} {key : Coord} {val : Nat}
    (hv : val < cm.capacity) (hf : hmFind cm.entries key = none) :
    cm.insert key val =
      some (⟨cm.capacity, cm.coordinate_size, cm.tensor_stride,
        cm.entries ++ [(key, val)], cm.storage.set val key⟩, val, true) := by
  simp [CMap.insert, hmInsert, hf, hv]

theorem CMap.insert_eq_none {cm : CMap} {key : Coord} {val : Nat}
    (hv : cm.capacity ≤ val) : cm.insert key val = none := by
  simp [CMap.insert, Nat.not_lt.mpr hv]

theorem firstOccEntries_congr {u u' : List Coord}
    (hm : ∀ x, x ∈ u ↔ x ∈ u') :
    ∀ (l : List Coord) (row : Nat),
      firstOccEntries u row l = firstOccEntries u' row l := by
  intro l
  induction l generalizing u u' hm with
  | nil => intro row; rfl
  | cons c rest ih =>
      intro row
      by_cases hc : c ∈ u
      · rw [firstOccEntries, if_pos hc, firstOccEntries,
          if_pos ((hm c).mp hc)]
        exact ih hm (row + 1)
      · rw [firstOccEntries, if_neg hc, firstOccEntries,
          if_neg (fun h => hc ((hm c).mpr h))]
        have hm2 : ∀ x, x ∈ u ++ [c] ↔ x ∈ u' ++ [c] := by
          intro x; simp [hm x]
        rw [ih hm2 (row + 1)]

theorem hmFind_append_single (c : Coord) (v : Nat) (x : Coord) :
    ∀ (E : List (Coord × Nat)),
      hmFind (E ++ [(c, v)]) x =
        match hmFind E x with
        | some w => some w
        | none => if c = x then some v else none := by
  intro E
  induction E with
  | nil => simp [hmFind]
  | cons e rest ih =>
      by_cases he : e.1 = x
      · simp [hmFind, he]
      · simp only [List.cons_append, hmFind, if_neg he, List.append_eq, ih]

/-- Main characterization of `insert_and_map<true>`'s loop: starting from a
map whose entries enumerate the duplicate-free seen list `u`, the run
deduplicates `rest` in first-seen order with densely increasing rows. -/
theorem insertAndMapGo_true_spec :
    ∀ (rest u : List Coord) (cm : CMap) (row : Nat) (mp im : List Nat),
      cm.entries = withIdxFrom 0 u → u.length ≤ row →
      row + rest.length ≤ cm.capacity →
      ∃ cmF : CMap,
        insertAndMapGo true cm u.length row mp im rest =
          some (cmF, mp ++ freshPositions u row rest, im ++ invIdx u rest)
        ∧ cmF.entries = withIdxFrom 0 (firstSeenFrom u rest)
        ∧ cmF.capacity = cm.capacity := by
  intro rest
  induction rest with
  | nil =>
      intro u cm row mp im he _ _
      refine ⟨cm, ?_, ?_, rfl⟩
      · simp [insertAndMapGo, freshPositions, invIdx]
      · rw [firstSeenFrom]; exact he
  | cons c rest' ih =>
      intro u cm row mp im he hur hcap
      have hv : u.length < cm.capacity := by
        simp only [List.length_cons] at hcap; omega
      by_cases hc : c ∈ u
      · -- duplicate: the map insert is a no-op returning the incumbent row
        have hf : hmFind cm.entries c = some (idxOf u c) := by
          rw [he, hmFind_withIdxFrom c u 0, if_pos hc, Nat.zero_add]
        have he2 : ({ cm with storage := cm.storage.set u.length c } :
            CMap).entries = withIdxFrom 0 u := he
        obtain ⟨cmF, hrun, hent, hcapF⟩ :=
          ih u { cm with storage := cm.storage.set u.length c } (row + 1) mp
            (im ++ [idxOf u c]) he2 (by omega)
            (show row + 1 + rest'.length ≤ cm.capacity by
              simp only [List.length_cons] at hcap; omega)
        refine ⟨cmF, ?_, ?_, ?_⟩
        · rw [freshPositions, if_pos hc, invIdx, if_pos hc]
          have h2 : im ++ idxOf u c :: invIdx u rest' =
              (im ++ [idxOf u c]) ++ invIdx u rest' := by simp
          rw [h2, ← hrun]
          simp only [insertAndMapGo]
          rw [CMap.insert_eq_found hv hf]
          rfl
        · rw [hent, firstSeenFrom_cons_mem rest' hc]
        · rw [hcapF]
      · -- fresh key: appended with the next dense row index
        have hf : hmFind cm.entries c = none := by
          rw [he, hmFind_withIdxFrom c u 0, if_neg hc]
        have he2 : (⟨cm.capacity, cm.coordinate_size, cm.tensor_stride,
            cm.entries ++ [(c, u.length)], cm.storage.set u.length c⟩ :
            CMap).entries = withIdxFrom 0 (u ++ [c]) := by
          show cm.entries ++ [(c, u.length)] = _
          rw [he, withIdxFrom_append u 0 c, Nat.zero_add]
        obtain ⟨cmF, hrun, hent, hcapF⟩ :=
          ih (u ++ [c]) ⟨cm.capacity, cm.coordinate_size, cm.tensor_stride,
            cm.entries ++ [(c, u.length)], cm.storage.set u.length c⟩
            (row + 1) (mp ++ [row]) (im ++ [u.length]) he2
            (by simp only [List.length_append, List.length_singleton]; omega)
            (show row + 1 + rest'.length ≤ cm.capacity by
              simp only [List.length_cons] at hcap; omega)
        have hl : (u ++ [c]).length = u.length + 1 := by simp
        rw [hl] at hrun
        refine ⟨cmF, ?_, ?_, ?_⟩
        · rw [freshPositions, if_neg hc, invIdx, if_neg hc]
          have h1 : mp ++ row :: freshPositions (u ++ [c]) (row + 1) rest' =
              (mp ++ [row]) ++ freshPositions (u ++ [c]) (row + 1) rest' := by
            simp
          have h2 : im ++ u.length :: invIdx (u ++ [c]) rest' =
              (im ++ [u.length]) ++ invIdx (u ++ [c]) rest' := by simp
          rw [h1, h2, ← hrun]
          simp only [insertAndMapGo]
          rw [CMap.insert_eq_fresh hv hf]
          rfl
        · rw [hent, firstSeenFrom_cons_not_mem rest' hc]
        · rw [hcapF]

theorem hfind_invariant_dup {cm : CMap} {p : List Coord} {c : Coord}
    (hfind : ∀ x, hmFind cm.entries x =
      if x ∈ p then some (idxOf p x) else none)
    (hc : c ∈ p) :
    ∀ x, hmFind cm.entries x =
      if x ∈ p ++ [c] then some (idxOf (p ++ [c]) x) else none := by
  intro x
  rw [hfind x]
  by_cases hx : x ∈ p
  · rw [if_pos hx, if_pos (List.mem_append_left [c] hx),
      idxOf_append_left [c] hx]
  · rw [if_neg hx, if_neg]
    simp only [List.mem_append, List.mem_singleton]
    rintro (h | h)
    · exact hx h
    · exact hx (h ▸ hc)

theorem hfind_invariant_fresh {cm : CMap} {p : List Coord} {c : Coord}
    (hfind : ∀ x, hmFind cm.entries x =
      if x ∈ p then some (idxOf p x) else none)
    (_hc : c ∉ p) :
    ∀ x, hmFind (cm.entries ++ [(c, p.length)]) x =
      if x ∈ p ++ [c] then some (idxOf (p ++ [c]) x) else none := by
  intro x
  rw [hmFind_append_single c p.length x cm.entries, hfind x]
  by_cases hx : x ∈ p
  · rw [if_pos hx, if_pos (List.mem_append_left [c] hx),
      idxOf_append_left [c] hx]
  · rw [if_neg hx]
    by_cases hxc : c = x
    · subst hxc
      rw [if_pos rfl, if_pos (List.mem_append_right p (by simp)),
        idxOf_append_right [c] hx]
      simp [idxOf]
    · rw [if_neg hxc, if_neg]
      simp only [List.mem_append, List.mem_singleton]
      rintro (h | h)
      · exact hx h
      · exact hxc h.symm

theorem mem_iff_append_dup {p : List Coord} {c : Coord} (hc : c ∈ p) :
    ∀ x : Coord, x ∈ p ↔ x ∈ p ++ [c] := by
  intro x
  simp only [List.mem_append, List.mem_singleton]
  exact ⟨fun h => Or.inl h, fun h => h.elim id (fun h2 => h2 ▸ hc)⟩

/-- Main characterization of `insert_and_map<false>`'s loop: `value` tracks
the input position, duplicates keep their first occurrence's row, and every
input row is copied into its own storage slot. -/
theorem insertAndMapGo_false_spec :
    ∀ (rest p : List Coord) (cm : CMap) (mp im : List Nat),
      (∀ x, hmFind cm.entries x =
        if x ∈ p then some (idxOf p x) else none) →
      p.length + rest.length ≤ cm.capacity →
      ∃ cmF : CMap,
        insertAndMapGo false cm p.length p.length mp im rest =
          some (cmF, mp ++ freshPositions p p.length rest,
            im ++ rest.map (fun c => idxOf (p ++ rest) c))
        ∧ cmF.entries = cm.entries ++ firstOccEntries p p.length rest
        ∧ cmF.capacity = cm.capacity
        ∧ cmF.storage = setAll cm.storage p.length rest := by
  intro rest
  induction rest with
  | nil =>
      intro p cm mp im _ _
      refine ⟨cm, ?_, by simp [firstOccEntries], rfl, rfl⟩
      simp [insertAndMapGo, freshPositions]
  | cons c rest' ih =>
      intro p cm mp im hfind hcap
      have hv : p.length < cm.capacity := by
        simp only [List.length_cons] at hcap; omega
      have hl : (p ++ [c]).length = p.length + 1 := by simp
      have hassoc : (p ++ [c]) ++ rest' = p ++ c :: rest' := by simp
      by_cases hc : c ∈ p
      · -- duplicate of an earlier input position
        have hf : hmFind cm.entries c = some (idxOf p c) := by
          rw [hfind c, if_pos hc]
        obtain ⟨cmF, hrun, hent, hcapF, hst⟩ :=
          ih (p ++ [c]) { cm with storage := cm.storage.set p.length c } mp
            (im ++ [idxOf p c]) (hfind_invariant_dup hfind hc)
            (show (p ++ [c]).length + rest'.length ≤ cm.capacity by
              rw [hl]; simp only [List.length_cons] at hcap; omega)
        rw [hl] at hrun hent hst
        rw [hassoc] at hrun
        refine ⟨cmF, ?_, ?_, ?_, ?_⟩
        · rw [freshPositions, if_pos hc,
            freshPositions_congr (mem_iff_append_dup hc) rest'
              (p.length + 1),
            List.map_cons, idxOf_append_left (c :: rest') hc]
          have h2 : im ++ idxOf p c :: rest'.map
                (fun x => idxOf (p ++ c :: rest') x) =
              (im ++ [idxOf p c]) ++ rest'.map
                (fun x => idxOf (p ++ c :: rest') x) := by simp
          rw [h2, ← hrun]
          simp only [insertAndMapGo]
          rw [CMap.insert_eq_found hv hf]
          rfl
        · rw [hent, firstOccEntries, if_pos hc,
            firstOccEntries_congr (mem_iff_append_dup hc) rest'
              (p.length + 1)]
        · rw [hcapF]
        · rw [hst]; rfl
      · -- fresh coordinate at input position `p.length`
        have hf : hmFind cm.entries c = none := by
          rw [hfind c, if_neg hc]
        obtain ⟨cmF, hrun, hent, hcapF, hst⟩ :=
          ih (p ++ [c]) (⟨cm.capacity, cm.coordinate_size, cm.tensor_stride,
            cm.entries ++ [(c, p.length)], cm.storage.set p.length c⟩ : CMap)
            (mp ++ [p.length]) (im ++ [p.length])
            (hfind_invariant_fresh hfind hc)
            (show (p ++ [c]).length + rest'.length ≤ cm.capacity by
              rw [hl]; simp only [List.length_cons] at hcap; omega)
        rw [hl] at hrun hent hst
        rw [hassoc] at hrun
        refine ⟨cmF, ?_, ?_, ?_, ?_⟩
        · rw [freshPositions, if_neg hc, List.map_cons,
            idxOf_append_right (c :: rest') hc]
          have h1 : mp ++ p.length :: freshPositions (p ++ [c])
                (p.length + 1) rest' =
              (mp ++ [p.length]) ++ freshPositions (p ++ [c])
                (p.length + 1) rest' := by simp
          have h2 : im ++ (p.length + idxOf (c :: rest') c) :: rest'.map
                (fun x => idxOf (p ++ c :: rest') x) =
              (im ++ [p.length]) ++ rest'.map
                (fun x => idxOf (p ++ c :: rest') x) := by
            simp [idxOf]
          rw [h1, h2, ← hrun]
          simp only [insertAndMapGo]
          rw [CMap.insert_eq_fresh hv hf]
          rfl
        · rw [hent, firstOccEntries, if_neg hc]
          simp
        · rw [hcapF]
        · rw [hst]; rfl

/-- Main characterization of the batch `insert` loop: identical map and
storage behaviour to `insert_and_map<false>` (the row index is the input
position). -/
theorem insertBatchGo_spec :
    ∀ (rest p : List Coord) (cm : CMap),
      (∀ x, hmFind cm.entries x =
        if x ∈ p then some (idxOf p x) else none) →
      p.length + rest.length ≤ cm.capacity →
      ∃ cmF : CMap,
        insertBatchGo cm p.length rest = some cmF
        ∧ cmF.entries = cm.entries ++ firstOccEntries p p.length rest
        ∧ cmF.capacity = cm.capacity
        ∧ cmF.storage = setAll cm.storage p.length rest := by
  intro rest
  induction rest with
  | nil =>
      intro p cm _ _
      exact ⟨cm, rfl, by simp [firstOccEntries], rfl, rfl⟩
  | cons c rest' ih =>
      intro p cm hfind hcap
      have hv : p.length < cm.capacity := by
        simp only [List.length_cons] at hcap; omega
      have hl : (p ++ [c]).length = p.length + 1 := by simp
      by_cases hc : c ∈ p
      · have hf : hmFind cm.entries c = some (idxOf p c) := by
          rw [hfind c, if_pos hc]
        obtain ⟨cmF, hrun, hent, hcapF, hst⟩ :=
          ih (p ++ [c]) { cm with storage := cm.storage.set p.length c }
            (hfind_invariant_dup hfind hc)
            (show (p ++ [c]).length + rest'.length ≤ cm.capacity by
              rw [hl]; simp only [List.length_cons] at hcap; omega)
        rw [hl] at hrun hent hst
        refine ⟨cmF, ?_, ?_, ?_, ?_⟩
        · rw [← hrun]
          simp only [insertBatchGo]
          rw [CMap.insert_eq_found hv hf]
        · rw [hent, firstOccEntries, if_pos hc,
            firstOccEntries_congr (mem_iff_append_dup hc) rest'
              (p.length + 1)]
        · rw [hcapF]
        · rw [hst]; rfl
      · have hf : hmFind cm.entries c = none := by
          rw [hfind c, if_neg hc]
        obtain ⟨cmF, hrun, hent, hcapF, hst⟩ :=
          ih (p ++ [c]) (⟨cm.capacity, cm.coordinate_size, cm.tensor_stride,
            cm.entries ++ [(c, p.length)], cm.storage.set p.length c⟩ : CMap)
            (hfind_invariant_fresh hfind hc)
            (show (p ++ [c]).length + rest'.length ≤ cm.capacity by
              rw [hl]; simp only [List.length_cons] at hcap; omega)
        rw [hl] at hrun hent hst
        refine ⟨cmF, ?_, ?_, ?_, ?_⟩
        · rw [← hrun]
          simp only [insertBatchGo]
          rw [CMap.insert_eq_fresh hv hf]
        · rw [hent, firstOccEntries, if_neg hc]
          simp
        · rw [hcapF]
        · rw [hst]; rfl

/-! ### Claim theorems -/

/-- Claim C1: with remap enabled, `insert_and_map` assigns row indices
densely in first-seen order (the entries enumerate the deduplicated input
with rows `0,1,2,…`), `mapping` lists exactly the input positions of first
occurrences in increasing order, `original[mapping]` is the deduplicated
set, and `unique[inverse_mapping]` reconstructs the original input
elementwise. -/
theorem insert_and_map_remap_true_spec (D : Nat) (coords : List Coord)
    (cm : CMap) (mp im : List Nat)
    (h : insert_and_map true D coords = some (cm, mp, im)) :
    cm.entries = withIdxFrom 0 (firstSeen coords)
    ∧ cm.entries.map (fun e => e.2) = List.range (firstSeen coords).length
    ∧ (∀ q, q ∈ mp ↔ q < coords.length ∧ coords.getD q [] ∉ coords.take q)
    ∧ List.Pairwise (fun a b => a < b) mp
    ∧ mp.map (fun q => coords.getD q []) = firstSeen coords
    ∧ im.map (fun j => (firstSeen coords).getD j []) = coords
    ∧ im.length = coords.length := by
  obtain ⟨cmF, hrun, hent, hcapF⟩ :=
    insertAndMapGo_true_spec coords [] (freshCMap D [1] coords.length) 0 [] []
      rfl (by simp) (by simp [freshCMap])
  have h2 : (some (cmF, [] ++ freshPositions [] 0 coords,
      [] ++ invIdx [] coords) :
      Option (CMap × List Nat × List Nat)) = some (cm, mp, im) := by
    rw [← hrun]; exact h
  simp only [Option.some.injEq, Prod.mk.injEq, List.nil_append] at h2
  obtain ⟨hcm, hmp, him⟩ := h2
  subst hcm; subst hmp; subst him
  simp only [firstSeen]
  refine ⟨hent, ?_, ?_, freshPositions_pairwise coords [] 0, ?_, ?_, ?_⟩
  · rw [hent, withIdxFrom_map_snd (firstSeenFrom [] coords) 0,
      List.range_eq_range']
  · intro q
    rw [mem_freshPositions coords [] 0 q]
    constructor
    · rintro ⟨i, hi, hq, _, ht⟩
      have hqi : q = i := by omega
      subst hqi
      exact ⟨hi, ht⟩
    · rintro ⟨hq, ht⟩
      exact ⟨q, hq, by omega, by simp, ht⟩
  · have h5 := freshPositions_map_getD coords [] 0
    simpa using h5
  · exact invIdx_getD coords []
  · have h6 := congrArg List.length (invIdx_getD coords [])
    simpa using h6

/-- Claim C1 witness: the spec's concrete scenario with coordinate_size 3:
inserting `[(0,0,0),(0,0,0),(0,2,2)]` yields size 2, `mapping = [0,2]`,
`inverse_mapping = [0,0,1]`, and `unique[inverse_mapping]` reconstructs the
input. -/
theorem insert_and_map_remap_true_example :
    insert_and_map true 3 [[0,0,0],[0,0,0],[0,2,2]] =
      some (⟨3, 3, [1], [([0,0,0], 0), ([0,2,2], 1)],
        [[0,0,0], [0,2,2], []]⟩, [0,2], [0,0,1])
    ∧ ([0,0,1] : List Nat).map
        (fun j => (firstSeen [[0,0,0],[0,0,0],[0,2,2]]).getD j []) =
      [[0,0,0],[0,0,0],[0,2,2]] := by
  constructor
  · decide
  · exact (insert_and_map_remap_true_spec 3 [[0,0,0],[0,0,0],[0,2,2]]
      ⟨3, 3, [1], [([0,0,0], 0), ([0,2,2], 1)], [[0,0,0], [0,2,2], []]⟩
      [0,2] [0,0,1] (by decide)).2.2.2.2.2.1

/-- Claim C5: with remap disabled, every input row (duplicates included)
gets its own storage row slot (slot `i` holds input coordinate `i`), a fresh
coordinate's map row equals its input position (no compaction),
`inverse_mapping i` is the input position of the first occurrence of
coordinate `i` — the identity on every first occurrence. -/
theorem insert_and_map_remap_false_spec (D : Nat) (coords : List Coord)
    (cm : CMap) (mp im : List Nat)
    (h : insert_and_map false D coords = some (cm, mp, im)) :
    (∀ i, i < coords.length → cm.storage.getD i [] = coords.getD i [])
    ∧ cm.entries = firstOccEntries [] 0 coords
    ∧ im = coords.map (fun c => idxOf coords c)
    ∧ (∀ i, i < coords.length → coords.getD i [] ∉ coords.take i →
        im.getD i 0 = i)
    ∧ mp = freshPositions [] 0 coords := by
  obtain ⟨cmF, hrun, hent, hcapF, hst⟩ :=
    insertAndMapGo_false_spec coords [] (freshCMap D [1] coords.length) [] []
      (fun x => by simp [freshCMap, hmFind]) (by simp [freshCMap])
  simp only [List.length_nil] at hrun hent hst
  have h2 : (some (cmF, [] ++ freshPositions [] 0 coords,
      [] ++ coords.map (fun c => idxOf ([] ++ coords) c)) :
      Option (CMap × List Nat × List Nat)) = some (cm, mp, im) := by
    rw [← hrun]; exact h
  simp only [Option.some.injEq, Prod.mk.injEq, List.nil_append] at h2
  obtain ⟨hcm, hmp, him⟩ := h2
  subst hcm; subst hmp; subst him
  have hentries : cmF.entries = firstOccEntries [] 0 coords := by
    simpa [freshCMap] using hent
  refine ⟨?_, hentries, rfl, ?_, rfl⟩
  · intro i hi
    have h3 := setAll_getD [] coords (freshCMap D [1] coords.length).storage
      0 i hi (by simp [freshCMap])
    rw [Nat.zero_add] at h3
    rw [hst]
    exact h3
  · intro i hi ht
    have h4 := getD_map_lt (fun c => idxOf coords c) [] 0 coords i hi
    rw [h4]
    exact idxOf_firstOcc coords i hi ht

/-- Claim C5 witness: with remap disabled on `[(0,0,0),(0,0,0),(0,2,2)]`,
the duplicate's storage slot 1 still holds its own copy of `(0,0,0)` and
`inverse_mapping = [0,0,2]` maps each input to its first occurrence's
position. -/
theorem insert_and_map_remap_false_example :
    (⟨3, 3, [1], [([0,0,0], 0), ([0,2,2], 2)],
      [[0,0,0], [0,0,0], [0,2,2]]⟩ : CMap).storage.getD 1 [] = [0,0,0]
    ∧ ([0,0,2] : List Nat) =
        ([[0,0,0],[0,0,0],[0,2,2]] : List Coord).map
          (fun c => idxOf [[0,0,0],[0,0,0],[0,2,2]] c) := by
  have h := insert_and_map_remap_false_spec 3 [[0,0,0],[0,0,0],[0,2,2]]
    ⟨3, 3, [1], [([0,0,0], 0), ([0,2,2], 2)], [[0,0,0], [0,0,0], [0,2,2]]⟩
    [0,2] [0,0,2] (by decide)
  exact ⟨h.1 1 (by decide), h.2.2.1⟩

/-- Claim C3 counterexample: batch `insert` of
`[(0,0,0),(0,0,0),(0,2,2)]` assigns rows `{0,2}` — the third coordinate
gets row 2 (its input position), not row 1 (its position among
successfully-inserted coordinates) — so the assigned rows are not the
contiguous range `[0, size()) = [0,1]`. -/
theorem insert_batch_dense_rows_counterexample :
    (insertBatch 3 [[0,0,0],[0,0,0],[0,2,2]]).map
        (fun cm => cm.entries.map (fun e => e.2)) = some [0, 2]
    ∧ (insertBatch 3 [[0,0,0],[0,0,0],[0,2,2]]).map
        (fun cm => List.range cm.size) = some [0, 1]
    ∧ ([0, 2] : List Nat) ≠ [0, 1] :=
  ⟨by decide, by decide, by decide⟩

/-- Claim C3 (amended): batch `insert` assigns each newly inserted
coordinate the row index equal to its input position; duplicates create no
entry (the first occurrence keeps the row), so assigned rows are the input
positions of first occurrences; in particular, when the batch is
duplicate-free the rows form the contiguous range `[0, size())`. -/
theorem insert_batch_first_seen_rows (D : Nat) (coords : List Coord)
    (cm : CMap) (h : insertBatch D coords = some cm) :
    cm.entries = firstOccEntries [] 0 coords
    ∧ (∀ e, e ∈ cm.entries → e.2 = idxOf coords e.1)
    ∧ cm.size = (firstSeen coords).length
    ∧ (coords.Nodup → cm.entries.map (fun e => e.2) =
        List.range coords.length) := by
  obtain ⟨cmF, hrun, hent, hcapF, hst⟩ :=
    insertBatchGo_spec coords [] (freshCMap D [1] coords.length)
      (fun x => by simp [freshCMap, hmFind]) (by simp [freshCMap])
  simp only [List.length_nil] at hrun hent hst
  have h2 : (some cmF : Option CMap) = some cm := by
    rw [← hrun]; exact h
  obtain rfl : cmF = cm := Option.some.inj h2
  have hentries : cmF.entries = firstOccEntries [] 0 coords := by
    simpa [freshCMap] using hent
  refine ⟨hentries, ?_, ?_, ?_⟩
  · intro e he
    rw [hentries] at he
    have h3 := mem_firstOccEntries coords [] 0 he
    rw [h3.2, Nat.zero_add]
  · have h4 := congrArg List.length (firstOccEntries_map_fst coords [] 0)
    simp only [List.length_map, List.length_drop, List.length_nil] at h4
    simp only [CMap.size, hentries, firstSeen]
    omega
  · intro hnd
    rw [hentries, firstOccEntries_map_snd coords [] 0,
      freshPositions_nodup_range coords [] 0 hnd (by simp),
      List.range_eq_range']

/-- Claim C3 (amended) witness: on the duplicate batch the rows are the
first-occurrence input positions `0` and `2`, and the size is 2. -/
theorem insert_batch_first_seen_rows_example :
    (⟨3, 3, [1], [([0,0,0], 0), ([0,2,2], 2)],
      [[0,0,0], [0,0,0], [0,2,2]]⟩ : CMap).entries =
      firstOccEntries [] 0 [[0,0,0],[0,0,0],[0,2,2]]
    ∧ (⟨3, 3, [1], [([0,0,0], 0), ([0,2,2], 2)],
      [[0,0,0], [0,0,0], [0,2,2]]⟩ : CMap).size = 2 := by
  have h := insert_batch_first_seen_rows 3 [[0,0,0],[0,0,0],[0,2,2]]
    ⟨3, 3, [1], [([0,0,0], 0), ([0,2,2], 2)], [[0,0,0], [0,0,0], [0,2,2]]⟩
    (by decide)
  exact ⟨h.1, by rw [h.2.2.1]; decide⟩

/-- Claim C8: the private `insert` aborts (fatal `ASSERT`) for every
coordinate and every row index at or beyond the declared capacity, and does
not trigger the assertion for a row index below capacity. -/
theorem insert_capacity_fatal (cm : CMap) (key : Coord) (val : Nat) :
    (cm.capacity ≤ val → cm.insert key val = none)
    ∧ (val < cm.capacity → (cm.insert key val).isSome = true) := by
  constructor
  · intro h
    exact CMap.insert_eq_none h
  · intro h
    rcases hf : hmFind cm.entries key with _ | w
    · rw [CMap.insert_eq_fresh h hf]; rfl
    · rw [CMap.insert_eq_found h hf]; rfl

/-- Claim C8 witness: on a capacity-1 map, inserting at row 1 aborts while
inserting at row 0 returns normally. -/
theorem insert_capacity_fatal_example :
    ((⟨1, 1, [1], [], [[]]⟩ : CMap).insert [7] 1 = none)
    ∧ (((⟨1, 1, [1], [], [[]]⟩ : CMap).insert [7] 0).isSome = true) :=
  ⟨(insert_capacity_fatal ⟨1, 1, [1], [], [[]]⟩ [7] 1).1 (by decide),
   (insert_capacity_fatal ⟨1, 1, [1], [], [[]]⟩ [7] 0).2 (by decide)⟩

/-- Claim C10: batch `find` aborts on its capacity assertion whenever the
number of query keys exceeds the declared capacity, before any lookup and
regardless of the keys queried. -/
theorem find_batch_size_precondition (cm : CMap) (queries : List Coord)
    (h : cm.capacity < queries.length) : cm.findBatch queries = none := by
  rw [CMap.findBatch, if_neg (by omega)]

/-- Claim C10 witness: three queries against a capacity-2 map abort even
though every query key is present in the map. -/
theorem find_batch_size_precondition_example :
    ((⟨2, 1, [1], [([0], 0)], [[0], []]⟩ : CMap).findBatch [[0],[0],[0]]
      = none)
    ∧ (∀ q ∈ ([[0],[0],[0]] : List Coord),
        (hmFind [([0], 0)] q).isSome = true) :=
  ⟨find_batch_size_precondition ⟨2, 1, [1], [([0], 0)], [[0], []]⟩
    [[0],[0],[0]] (by decide), by decide⟩

/-- Claim C9: `stride_map` asserts `in_size > out_size` up front, so calling
it with an output map at least as large as the input map is fatal — even
when every strided input coordinate has a matching output entry. -/
theorem stride_map_size_precondition (cm out_cm : CMap) (ts : List Int)
    (h : cm.size ≤ out_cm.size) : stride_mapFn cm out_cm ts = none := by
  rw [stride_mapFn, if_neg (by omega)]

/-- Claim C9 witness: two equal-size (size-1) maps whose strided coordinate
matches exactly still hit the fatal size assertion. -/
theorem stride_map_size_precondition_example :
    stride_mapFn ⟨1, 2, [1], [([0,0], 0)], [[0,0]]⟩
      ⟨1, 2, [1], [([0,0], 0)], [[0,0]]⟩ [1] = none
    ∧ (∀ e ∈ ([([0,0], 0)] : List (Coord × Nat)),
        (hmFind [([0,0], 0)] (strideCoordinate e.1 [1])).isSome = true) :=
  ⟨stride_map_size_precondition ⟨1, 2, [1], [([0,0], 0)], [[0,0]]⟩
    ⟨1, 2, [1], [([0,0], 0)], [[0,0]]⟩ [1] (by decide), by decide⟩

theorem strideMapLoop_all_found (outEntries : List (Coord × Nat))
    (ts : List Int) :
    ∀ l : List (Coord × Nat),
      (∀ e ∈ l,
        (hmFind outEntries (strideCoordinate e.1 ts)).isSome = true) →
      strideMapLoop outEntries ts l =
        some (l.map (fun e =>
          (e.2, (hmFind outEntries (strideCoordinate e.1 ts)).getD 0))) := by
  intro l
  induction l with
  | nil => intro _; rfl
  | cons e rest ih =>
      intro hall
      have hs := hall e (List.mem_cons_self e rest)
      rcases hf : hmFind outEntries (strideCoordinate e.1 ts) with _ | orow
      · rw [hf] at hs; simp at hs
      · rw [strideMapLoop, hf,
          ih (fun x hx => hall x (List.mem_cons_of_mem e hx))]
        simp [hf]

theorem strideMapLoop_missing (outEntries : List (Coord × Nat))
    (ts : List Int) :
    ∀ l : List (Coord × Nat),
      (∃ e ∈ l, hmFind outEntries (strideCoordinate e.1 ts) = none) →
      strideMapLoop outEntries ts l = none := by
  intro l
  induction l with
  | nil => rintro ⟨e, he, _⟩; cases he
  | cons e rest ih =>
      rintro ⟨x, hx, hfx⟩
      rcases List.mem_cons.mp hx with h' | h'
      · subst h'
        rw [strideMapLoop, hfx]
      · rcases hf : hmFind outEntries (strideCoordinate e.1 ts) with _ | orow
        · rw [strideMapLoop, hf]
        · rw [strideMapLoop, hf, ih ⟨x, h', hfx⟩]
          rfl

/-- Claim C6 counterexample: with an input map and an output map of equal
size 1 whose (identity-)strided coordinate is present in the output map,
`stride_map` still aborts on its size assertion instead of producing the
one pair per input row. -/
theorem stride_map_equal_size_counterexample :
    stride_mapFn ⟨1, 2, [1], [([0,2], 0)], [[0,2]]⟩
      ⟨1, 2, [1], [([0,2], 0)], [[0,2]]⟩ [1] = none
    ∧ (∀ e ∈ ([([0,2], 0)] : List (Coord × Nat)),
        hmFind [([0,2], 0)] (strideCoordinate e.1 [1]) = some 0) :=
  ⟨by decide, by decide⟩

/-- Claim C6 (amended): provided the input map is strictly larger than the
output map (the size assertion the code makes, cf. C9), `stride_map`
produces exactly one `(in_row, out_row)` pair per input entry, with
`out_row` the output map's row of the strided input coordinate; and if some
strided input coordinate has no output entry, it aborts fatally. -/
theorem stride_map_pairs_spec (cm out_cm : CMap) (ts : List Int)
    (hsize : out_cm.size < cm.size) :
    ((∀ e ∈ cm.entries,
        (hmFind out_cm.entries (strideCoordinate e.1 ts)).isSome = true) →
      stride_mapFn cm out_cm ts =
        some (cm.entries.map (fun e => e.2),
          cm.entries.map (fun e =>
            (hmFind out_cm.entries (strideCoordinate e.1 ts)).getD 0))
      ∧ (cm.entries.map (fun e => e.2)).length = cm.size)
    ∧ ((∃ e ∈ cm.entries,
        hmFind out_cm.entries (strideCoordinate e.1 ts) = none) →
      stride_mapFn cm out_cm ts = none) := by
  constructor
  · intro hall
    constructor
    · rw [stride_mapFn, if_pos hsize,
        strideMapLoop_all_found out_cm.entries ts cm.entries hall]
      simp [List.map_map]
    · simp [CMap.size]
  · intro hmiss
    rw [stride_mapFn, if_pos hsize,
      strideMapLoop_missing out_cm.entries ts cm.entries hmiss]
    rfl

/-- Claim C6 witness: two input coordinates stride (by 2) onto the single
output coordinate; the result is exactly one pair per input row. -/
theorem stride_map_pairs_example :
    stride_mapFn ⟨2, 2, [1], [([0,0], 0), ([0,1], 1)], [[0,0], [0,1]]⟩
      ⟨1, 2, [2], [([0,0], 0)], [[0,0]]⟩ [2] = some ([0, 1], [0, 0]) :=
  ((stride_map_pairs_spec
    ⟨2, 2, [1], [([0,0], 0), ([0,1], 1)], [[0,0], [0,1]]⟩
    ⟨1, 2, [2], [([0,0], 0)], [[0,0]]⟩ [2] (by decide)).1 (by decide)).1

theorem findLoop_eq_findPairs (m : List (Coord × Nat)) :
    ∀ (qs : List Coord) (i : Nat),
      findLoop m i qs =
        ((findPairs m i qs).map Prod.fst,
         (findPairs m i qs).map Prod.snd) := by
  intro qs
  induction qs with
  | nil => intro i; rfl
  | cons k rest ih =>
      intro i
      rcases hf : hmFind m k with _ | v <;>
        simp [findLoop, findPairs, withIdxFrom, List.filterMap_cons, hf,
          ih (i + 1)]

theorem mem_findPairs (m : List (Coord × Nat)) (qs : List Coord)
    (j r : Nat) :
    (j, r) ∈ findPairs m 0 qs ↔
      j < qs.length ∧ hmFind m (qs.getD j []) = some r := by
  rw [findPairs, List.mem_filterMap]
  constructor
  · rintro ⟨e, he, hfe⟩
    rcases hf : hmFind m e.1 with _ | v
    · rw [hf] at hfe; simp at hfe
    · rw [hf] at hfe
      simp only [Option.map_some', Option.some.injEq, Prod.mk.injEq] at hfe
      obtain ⟨hej, hvr⟩ := hfe
      have he2 : (e.1, e.2) ∈ withIdxFrom 0 qs := he
      obtain ⟨t, htl, hjt, hct⟩ := (mem_withIdxFrom qs 0 e.1 e.2).mp he2
      have htj : e.2 = t := by omega
      refine ⟨by omega, ?_⟩
      rw [← hej, htj, ← hct, hf, hvr]
  · rintro ⟨hj, hf⟩
    refine ⟨(qs.getD j [], j), ?_, ?_⟩
    · exact (mem_withIdxFrom qs 0 (qs.getD j []) j).mpr
        ⟨j, hj, by omega, rfl⟩
    · rw [hf]; rfl

theorem findPairs_lower_bound (m : List (Coord × Nat)) :
    ∀ (qs : List Coord) (i : Nat), ∀ e ∈ findPairs m i qs, i ≤ e.1 := by
  intro qs
  induction qs with
  | nil => intro i e he; simp [findPairs, withIdxFrom] at he
  | cons k rest ih =>
      intro i e he
      rw [findPairs, withIdxFrom, List.filterMap_cons] at he
      rcases hf : hmFind m k with _ | v
      · rw [hf] at he
        have := ih (i + 1) e he
        omega
      · rw [hf] at he
        rcases List.mem_cons.mp he with h' | h'
        · rw [h']
        · have := ih (i + 1) e h'
          omega

theorem findPairs_pairwise (m : List (Coord × Nat)) :
    ∀ (qs : List Coord) (i : Nat),
      List.Pairwise (fun a b => a < b) ((findPairs m i qs).map Prod.fst) := by
  intro qs
  induction qs with
  | nil => intro i; simp [findPairs, withIdxFrom]
  | cons k rest ih =>
      intro i
      rw [findPairs, withIdxFrom, List.filterMap_cons]
      rcases hf : hmFind m k with _ | v
      · exact ih (i + 1)
      · simp only [Option.map_some']
        rw [List.map_cons]
        refine List.pairwise_cons.mpr ⟨?_, ih (i + 1)⟩
        intro b hb
        obtain ⟨e, he, hbe⟩ := List.mem_map.mp hb
        have := findPairs_lower_bound m rest (i + 1) e he
        omega

theorem findPairs_nil_entries :
    ∀ (qs : List Coord) (i : Nat), findPairs [] i qs = [] := by
  intro qs
  induction qs with
  | nil => intro i; rfl
  | cons k rest ih =>
      intro i
      rw [findPairs, withIdxFrom, List.filterMap_cons]
      simp only [hmFind, Option.map_none']
      exact ih (i + 1)

/-- Claim C7 counterexample: three query keys against a capacity-2 map
abort on the capacity assertion even though every query key is present, so
batch `find` does not return the aligned hit sequences for every query
sequence. -/
theorem find_batch_capacity_counterexample :
    (⟨2, 1, [1], [([4], 0)], [[4], []]⟩ : CMap).findBatch [[4],[4],[4]]
      = none
    ∧ (∀ q ∈ ([[4],[4],[4]] : List Coord),
        hmFind [([4], 0)] q = some 0) :=
  ⟨by decide, by decide⟩

/-- Claim C7 (amended): for every query sequence of at most capacity-many
keys, batch `find` returns two index-aligned equal-length sequences — the
found query positions in increasing input order and the corresponding rows;
a pair appears exactly for the present keys (absent keys are silently
dropped), and an empty map yields empty results. -/
theorem find_batch_spec (cm : CMap) (queries : List Coord)
    (h : queries.length ≤ cm.capacity) :
    cm.findBatch queries =
      some ((findPairs cm.entries 0 queries).map Prod.fst,
        (findPairs cm.entries 0 queries).map Prod.snd)
    ∧ ((findPairs cm.entries 0 queries).map Prod.fst).length =
        ((findPairs cm.entries 0 queries).map Prod.snd).length
    ∧ List.Pairwise (fun a b => a < b)
        ((findPairs cm.entries 0 queries).map Prod.fst)
    ∧ (∀ j r, (j, r) ∈ findPairs cm.entries 0 queries ↔
        j < queries.length ∧ hmFind cm.entries (queries.getD j []) = some r)
    ∧ (cm.entries = [] → findPairs cm.entries 0 queries = []) := by
  refine ⟨?_, by simp, findPairs_pairwise cm.entries queries 0,
    fun j r => mem_findPairs cm.entries queries j r, fun he => ?_⟩
  · rw [CMap.findBatch, if_pos h, findLoop_eq_findPairs cm.entries queries 0]
  · rw [he]
    exact findPairs_nil_entries queries 0

/-- Claim C7 (amended) witness: on a capacity-3 map holding keys `5 → 0`
and `7 → 1`, the queries `[7, 9, 5]` return positions `[0, 2]` aligned with
rows `[1, 0]`; the miss `9` is silently dropped. -/
theorem find_batch_spec_example :
    (⟨3, 1, [1], [([5], 0), ([7], 1)], [[5], [7], []]⟩ : CMap).findBatch
      [[7],[9],[5]] = some ([0, 2], [1, 0]) :=
  (find_batch_spec ⟨3, 1, [1], [([5], 0), ([7], 1)], [[5], [7], []]⟩
    [[7],[9],[5]] (by decide)).1

theorem filterMapCongr {α β : Type} {f g : α → Option β} :
    ∀ {l : List α}, (∀ a ∈ l, f a = g a) → l.filterMap f = l.filterMap g := by
  intro l
  induction l with
  | nil => intro _; rfl
  | cons a rest ih =>
      intro h
      rw [List.filterMap_cons, List.filterMap_cons,
        h a (List.mem_cons_self a rest),
        ih (fun x hx => h x (List.mem_cons_of_mem a hx))]

theorem range'_getD :
    ∀ (n i k : Nat), k < n → (List.range' i n).getD k 0 = i + k := by
  intro n
  induction n with
  | zero => intro i k h; omega
  | succ n' ih =>
      intro i k h
      match k with
      | 0 => simp [List.range']
      | k' + 1 =>
          have h2 := ih (i + 1) k' (by omega)
          simp only [List.range', List.getD_cons_succ]
          rw [h2]
          omega

theorem range_getD (n k : Nat) (h : k < n) :
    (List.range n).getD k 0 = k := by
  rw [List.range_eq_range', range'_getD n 0 k h, Nat.zero_add]

theorem getD_map_range {β : Type} (f : Nat → β) (d : β) (n k : Nat)
    (h : k < n) : ((List.range n).map f).getD k d = f k := by
  rw [getD_map_lt f 0 d (List.range n) k (by simpa using h),
    range_getD n k h]

theorem mem_kmPairsAt (cm : CMap) (outEntries : List (Coord × Nat))
    (K : KernelRegion) (k irow orow : Nat) :
    (irow, orow) ∈ kmPairsAt cm outEntries K k ↔
      ∃ c, (c, orow) ∈ outEntries ∧
        hmFind cm.entries (K.neighbor c k) = some irow := by
  rw [kmPairsAt, List.mem_filterMap]
  constructor
  · rintro ⟨e, he, hfe⟩
    rcases hf : hmFind cm.entries (K.neighbor e.1 k) with _ | v
    · rw [hf] at hfe; simp at hfe
    · rw [hf] at hfe
      simp only [Option.map_some', Option.some.injEq, Prod.mk.injEq] at hfe
      refine ⟨e.1, ?_, ?_⟩
      · have he2 : (e.1, e.2) ∈ outEntries := he
        rwa [hfe.2] at he2
      · rw [hf, hfe.1]
  · rintro ⟨c, hc, hf⟩
    exact ⟨(c, orow), hc, by rw [hf]; rfl⟩

theorem kmPairsFast_eq (cm : CMap) (outEntries : List (Coord × Nat))
    (K : KernelRegion) (hid : ∀ c, K.neighbor c 0 = c) :
    kmPairsFast cm outEntries = kmPairsAt cm outEntries K 0 := by
  rw [kmPairsFast, kmPairsAt]
  apply filterMapCongr
  intro e _
  rw [hid e.1]

/-- Claim C2: for every input map, output map and kernel region (whose
volume-1 non-custom form enumerates the center itself, per the region
contract), `kernel_map` returns `kernel.volume()` index-aligned list pairs
of equal length, and for every offset `k` the aligned pairs are exactly the
`(in_row, out_row)` with `(c, out_row)` an output entry and the input map's
row for the offset-`k` neighbor of `c` equal to `in_row` — every matching
pair appears and no pair without the neighbor relationship appears. -/
theorem kernel_map_alignment_spec (cm out_cm : CMap) (K : KernelRegion)
    (hid : K.is_custom = false ∧ K.volume = 1 → ∀ c, K.neighbor c 0 = c) :
    (kernel_mapFn cm out_cm K).1.length = K.volume
    ∧ (kernel_mapFn cm out_cm K).2.length = K.volume
    ∧ (∀ k, k < K.volume →
        ((kernel_mapFn cm out_cm K).1.getD k []).length =
          ((kernel_mapFn cm out_cm K).2.getD k []).length)
    ∧ (∀ k, k < K.volume → ∀ irow orow,
        ((irow, orow) ∈ (((kernel_mapFn cm out_cm K).1.getD k []).zip
          ((kernel_mapFn cm out_cm K).2.getD k [])) ↔
        ∃ c, (c, orow) ∈ out_cm.entries ∧
          hmFind cm.entries (K.neighbor c k) = some irow)) := by
  by_cases hfast : K.is_custom = false ∧ K.volume = 1
  · have hv1 : K.volume = 1 := hfast.2
    have hn := hid hfast
    simp only [kernel_mapFn, if_pos hfast]
    refine ⟨by simp [hv1], by simp [hv1], ?_, ?_⟩
    · intro k hk
      have hk0 : k = 0 := by omega
      subst hk0
      simp
    · intro k hk irow orow
      have hk0 : k = 0 := by omega
      subst hk0
      simp only [List.getD_cons_zero]
      rw [zip_map_fst_snd (kmPairsFast cm out_cm.entries),
        kmPairsFast_eq cm out_cm.entries K hn]
      exact mem_kmPairsAt cm out_cm.entries K 0 irow orow
  · simp only [kernel_mapFn, if_neg hfast]
    refine ⟨by simp, by simp, ?_, ?_⟩
    · intro k hk
      rw [getD_map_range
          (fun k => (kmPairsAt cm out_cm.entries K k).map Prod.fst) []
          K.volume k hk,
        getD_map_range
          (fun k => (kmPairsAt cm out_cm.entries K k).map Prod.snd) []
          K.volume k hk]
      simp
    · intro k hk irow orow
      rw [getD_map_range
          (fun k => (kmPairsAt cm out_cm.entries K k).map Prod.fst) []
          K.volume k hk,
        getD_map_range
          (fun k => (kmPairsAt cm out_cm.entries K k).map Prod.snd) []
          K.volume k hk,
        zip_map_fst_snd (kmPairsAt cm out_cm.entries K k)]
      exact mem_kmPairsAt cm out_cm.entries K k irow orow

/-- Claim C2 witness: a custom volume-2 region (offset 0 the identity,
offset 1 shifting the second component) over the map
`{(0,0) → 0, (0,1) → 1}` used as both input and output produces two
aligned per-offset lists. -/
theorem kernel_map_alignment_example :
    (kernel_mapFn ⟨2, 2, [1], [([0,0], 0), ([0,1], 1)], [[0,0], [0,1]]⟩
      ⟨2, 2, [1], [([0,0], 0), ([0,1], 1)], [[0,0], [0,1]]⟩
      ⟨2, true, [1],
        fun c k => [c.getD 0 0, c.getD 1 0 + (k : Int)]⟩).1.length = 2 :=
  (kernel_map_alignment_spec
    ⟨2, 2, [1], [([0,0], 0), ([0,1], 1)], [[0,0], [0,1]]⟩
    ⟨2, 2, [1], [([0,0], 0), ([0,1], 1)], [[0,0], [0,1]]⟩
    ⟨2, true, [1], fun c k => [c.getD 0 0, c.getD 1 0 + (k : Int)]⟩
    (fun h => absurd h.1 (by decide))).1

/-- Claim C4 (code-bug evidence): `stride_region` as written looks each
kernel point up in the new map (`out_mmap`) but then calls the receiver's
own `insert(point, num_used)` — mutating `this`, which is declared `const`
(upstream calls `stride_map.insert`) — so on a single-coordinate map with a
volume-2 kernel the returned new map stays empty while the receiver has
absorbed the neighbor coordinate `(0,1)`; the claim's intended result is a
new map holding exactly `{(0,0), (0,1)}` with the input unchanged. -/
theorem stride_region_inserts_into_receiver :
    (stride_region ⟨3, 2, [1], [([0,0], 0)], [[0,0], [], []]⟩
        ⟨2, true, [2], fun c k => [c.getD 0 0, c.getD 1 0 + (k : Int)]⟩).map
      (fun r => (r.1.entries, r.2.entries)) =
    some ([], [([0,0], 0), ([0,1], 1)]) := by
  rfl

end MinkowskiCPU
